import Mathlib

/-!
Verification of the outline-inference engine in `process_pdfs.py`
(class `MultilingualPDFExtractor`).

Text is modelled as `List Char`.  Font sizes are modelled as `ℚ`
(Python floats rounded to 0.1; no claim depends on binary float
artefacts or on round-half-even tie behaviour).  The two external
collaborators — the PDF reader (PyMuPDF) and the language detector
(langdetect) — are out of the engine: the reader's output is the input
`Doc` value, and the detector is passed in as a function argument.
-/

namespace PdfExtract

/-- Text fragments are lists of characters. -/
abbrev Text := List Char

/-- A styled text run, as delivered by the document reader.  The source
reads only `span["size"]` and `span["text"]`; the `bold` field models the
style flags that PyMuPDF also delivers and that the code never reads. -/
structure Span where
  size : ℚ
  text : Text
  bold : Bool
deriving DecidableEq, Repr

/-- A rendering line: the spans of one `line["spans"]` list. -/
abbrev PLine := List Span

/-- One PyMuPDF block: its list of lines.  Blocks without a `lines` key
(image blocks) are skipped by the source; they are modelled as blocks
with an empty line list, which the traversal treats identically. -/
abbrev PBlock := List PLine

/-- One page: its list of PyMuPDF blocks. -/
abbrev Page := List PBlock

/-- One document: its pages in order. -/
abbrev Doc := List Page

/-- Whitespace in the sense of Python's `\s` (for `str`) and `str.strip`,
modelled over the whitespace code points exercised here. -/
def isWs (c : Char) : Bool :=
  c == ' ' || c == '\t' || c == '\n' || c == '\r' || c == '\x0b' ||
  c == '\x0c' || c == '\x1c' || c == '\x1d' || c == '\x1e' ||
  c == '\x1f' || c == '\u0085' || c == ' ' || c == ' ' ||
  c == ' ' || c == '　'

/-- Modelled from the spec: `unicodedata.normalize('NFKC', ·)` is an
external library call; it is modelled as a character-wise compatibility
mapping over a representative table.  Its outputs are NFKC fixed points,
matching the idempotence of the real NFKC transformation. -/
def nfkcChar (c : Char) : List Char :=
  if c = ' ' then [' ']
  else if c = 'ﬁ' then ['f', 'i']
  else if c = 'ﬂ' then ['f', 'l']
  else if c = '①' then ['1']
  else if c = 'Ａ' then ['A']
  else if c = '²' then ['2']
  else [c]

/-- NFKC normalization of a text, character by character. -/
def nfkc (t : Text) : Text := (t.map nfkcChar).flatten

/-- `re.sub(r'\s+', ' ', ·)`: every maximal run of whitespace becomes a
single ASCII space. -/
def collapseWs : Text → Text
  | [] => []
  | [c] => if isWs c then [' '] else [c]
  | c :: d :: rest =>
    if isWs c && isWs d then collapseWs (d :: rest)
    else (if isWs c then ' ' else c) :: collapseWs (d :: rest)

/-- Remove trailing whitespace (the right half of `str.strip`). -/
def stripEnd : Text → Text
  | [] => []
  | c :: cs => if stripEnd cs = [] ∧ isWs c then [] else c :: stripEnd cs

/-- `str.strip()`: drop leading and trailing whitespace. -/
def stripWs (t : Text) : Text := stripEnd (t.dropWhile isWs)

/-- `self.rtl_languages = {'ar', 'he', 'fa', 'ur'}` (source line 35). -/
def rtl_languages : List String := ["ar", "he", "fa", "ur"]

/-- `normalize_text` (source lines 61-77): empty input maps to empty;
otherwise NFKC, then trim-only for RTL language hints, else whitespace
collapsing plus trim. -/
def normalize_text (t : Text) (language : String) : Text :=
  if t = [] then []
  else if language ∈ rtl_languages then stripWs (nfkc t)
  else stripWs (collapseWs (nfkc t))

/-- ASCII decimal digits together with the Arabic-Indic digits that the
source's patterns name explicitly (Python `\d` is Unicode-wide; the
digits exercised here are modelled). -/
def isDigitCh (c : Char) : Bool :=
  ('0' ≤ c && c ≤ '9') || ('٠' ≤ c && c ≤ '٩')

/-- ASCII uppercase letter. -/
def isUpperCh (c : Char) : Bool := 'A' ≤ c && c ≤ 'Z'

/-- ASCII lowercase letter. -/
def isLowerCh (c : Char) : Bool := 'a' ≤ c && c ≤ 'z'

/-- Cased character (ASCII model of Python's notion of cased). -/
def isCasedCh (c : Char) : Bool := isUpperCh c || isLowerCh c

/-- ASCII lowercasing, for the case-insensitive pattern and for
case-folded dedup keys. -/
def toLowerCh (c : Char) : Char :=
  if isUpperCh c then Char.ofNat (c.toNat + 32) else c

/-- `str.isupper()`: some cased character exists and every cased
character is uppercase (ASCII model). -/
def isUpperText (t : Text) : Bool :=
  t.any isCasedCh && t.all (fun c => !isCasedCh c || isUpperCh c)

/-- Case-insensitively consume the word `w` (given lowercased) from the
front of `t`; return the remainder on success. -/
def dropCI : Text → Text → Option Text
  | [], t => some t
  | _ :: _, [] => none
  | w :: ws, c :: cs => if toLowerCh c = w then dropCI ws cs else none

/-- After a keyword: `\s+\d` — at least one whitespace then a digit. -/
def wsThenDigit (r : Text) : Bool :=
  match r with
  | c :: _ =>
    isWs c &&
      (match r.dropWhile isWs with
       | d :: _ => isDigitCh d
       | [] => false)
  | [] => false

/-- `re.search(r'^(Chapter|Section|Part)\s+\d+', text, re.IGNORECASE)`
(source line 99). -/
def chapterHeading (t : Text) : Bool :=
  (match dropCI ( "chapter".toList) t with
   | some r => wsThenDigit r
   | none => false) ||
  (match dropCI ( "section".toList) t with
   | some r => wsThenDigit r
   | none => false) ||
  (match dropCI ( "part".toList) t with
   | some r => wsThenDigit r
   | none => false)

/-- `re.search(r'^\d+[\.\)]\s', text)` (source line 95): one or more
digits, then a dot or closing parenthesis, then a whitespace. -/
def numberedHeading (t : Text) : Bool :=
  match t with
  | c :: rest =>
    isDigitCh c &&
      (match rest.dropWhile isDigitCh with
       | p :: s :: _ => (p == '.' || p == ')') && isWs s
       | _ => false)
  | [] => false

/-- CJK chapter/section marker characters `[第章节]`. -/
def cjkMarkCh (c : Char) : Bool := c == '第' || c == '章' || c == '节'

/-- Chinese numerals or digits `[一二三四五六七八九十\d]`. -/
def cjkNumCh (c : Char) : Bool :=
  c == '一' || c == '二' || c == '三' || c == '四' || c == '五' ||
  c == '六' || c == '七' || c == '八' || c == '九' || c == '十' ||
  isDigitCh c

/-- Match `[第章节]\s*[一二三四五六七八九十\d]+` at the current
position. -/
def cjkAt (t : Text) : Bool :=
  match t with
  | c :: rest =>
    cjkMarkCh c &&
      (match rest.dropWhile isWs with
       | d :: _ => cjkNumCh d
       | [] => false)
  | [] => false

/-- `re.search` of the CJK chapter pattern anywhere in the text
(source line 87). -/
def cjkHeading : Text → Bool
  | [] => false
  | c :: rest => cjkAt (c :: rest) || cjkHeading rest

/-- Arabic block characters or whitespace `[؀-ۿ\s]`. -/
def arWsCh (c : Char) : Bool := ('؀' ≤ c && c ≤ 'ۿ') || isWs c

/-- One or more digits followed by Arabic-or-whitespace to the end. -/
def arDigits : Text → Bool
  | [] => false
  | c :: rest => isDigitCh c && (arDigits rest || rest.all arWsCh)

/-- `re.search(r'^[؀-ۿ\s]*[\d٠-٩]+[؀-ۿ\s]*$', text)`
(source line 91), with the regex's backtracking split semantics. -/
def arHeading : Text → Bool
  | [] => false
  | c :: rest => arDigits (c :: rest) || (arWsCh c && arHeading rest)

/-- `is_likely_heading` (source lines 79-102).  The `zh/ja` and `ar/he`
guard sets are disjoint, so the source's if/elif chain equals this
disjunction. -/
def is_likely_heading (t : Text) (language : String) : Bool :=
  if 200 < t.length then false
  else
    ((language == "zh" || language == "ja") && cjkHeading t) ||
    ((language == "ar" || language == "he") && arHeading t) ||
    numberedHeading t ||
    (isUpperText t && t.length < 50) ||
    chapterHeading t

/-- `round(·, 1)`: font sizes rounded to one decimal place, computed on
the numerator and denominator so that the kernel can evaluate it:
`⌊10q + 1/2⌋ / 10 = ⌊(20 num + den) / (2 den)⌋ / 10` (Python uses
round-half-to-even; no claim exercises a tie). -/
def round1 (q : ℚ) : ℚ :=
  Rat.divInt (Int.fdiv (20 * q.num + q.den) (2 * q.den)) 10

/-- One entry of `text_blocks` (source lines 139-143). -/
structure TextBlock where
  text : Text
  font_size : ℚ
  page : Nat
deriving DecidableEq, Repr

/-- One outline entry (source lines 184, 187, 190). -/
structure Heading where
  level : String
  text : Text
  page : Nat
deriving DecidableEq, Repr

/-- Per-span rounded sizes of a line, in order: each span contributes
one tally to `font_sizes` (source lines 129-130). -/
def lineSizes (ln : PLine) : List ℚ := ln.map (fun s => round1 s.size)

/-- `line_text`: the concatenation of the normalized span texts, with
the default language hint of `normalize_text` — `'unknown'` — because
the document language is not known yet (source lines 133-135). -/
def lineText (ln : PLine) : Text :=
  (ln.map (fun s => normalize_text s.text "unknown")).flatten

/-- `line_font_size`: the last span's rounded size, `0` if the line has
no spans (source lines 126, 136). -/
def lineFontSize (ln : PLine) : ℚ :=
  ln.foldl (fun _ s => round1 s.size) 0

/-- All lines of a page in traversal order (blocks flattened; image
blocks contribute nothing). -/
def pageLines (pg : Page) : List PLine := pg.flatten

/-- Accumulate `(font size tallies, text_blocks, all_text)` over the
lines of one page numbered `n` (source lines 124-144).  A line is kept
only when its stripped text is non-empty; `all_text` gets a space plus
the stripped text per kept line. -/
def processLines (n : Nat) : List PLine → List ℚ × List TextBlock × Text
  | [] => ([], [], [])
  | ln :: ls =>
    let rest := processLines n ls
    let st := stripWs (lineText ln)
    (lineSizes ln ++ rest.1,
     (if st ≠ [] then [⟨st, lineFontSize ln, n⟩] else []) ++ rest.2.1,
     (if st ≠ [] then ' ' :: st else []) ++ rest.2.2)

/-- Walk the pages, numbering them from `n` (`page_num + 1` in the
source). -/
def collectAux : Nat → List Page → List ℚ × List TextBlock × Text
  | _, [] => ([], [], [])
  | n, pg :: rest =>
    let here := processLines n (pageLines pg)
    let there := collectAux (n + 1) rest
    (here.1 ++ there.1, here.2.1 ++ there.2.1, here.2.2 ++ there.2.2)

/-- The span-reading phase of `extract_title_and_headings`
(source lines 112-144): font-size occurrences, `text_blocks`, and
`all_text` for language detection. -/
def collect (doc : Doc) : List ℚ × List TextBlock × Text := collectAux 1 doc

/-- Insert into a descending-sorted list. -/
def insertDesc (x : ℚ) : List ℚ → List ℚ
  | [] => [x]
  | y :: ys => if y < x then x :: y :: ys else y :: insertDesc x ys

/-- Sort descending (`sorted(..., reverse=True)`). -/
def sortDesc (l : List ℚ) : List ℚ := l.foldr insertDesc []

/-- `unique_sizes = sorted(set(font_sizes.keys()), reverse=True)`
(source line 158). -/
def uniqueSizesDesc (sizes : List ℚ) : List ℚ := sortDesc sizes.dedup

/-- `font_mapping` (source lines 157-167): a dict assigning, by
descending size, `title`, `H1`, `H2`, `H3` — and nothing else; the
source has no fifth assignment. -/
def font_mapping (us : List ℚ) : List (String × ℚ) :=
  match us with
  | [] => []
  | [a] => [( "title", a)]
  | [a, b] => [( "title", a), ( "H1", b)]
  | [a, b, c] => [( "title", a), ( "H1", b), ( "H2", c)]
  | a :: b :: c :: d :: _ =>
    [( "title", a), ( "H1", b), ( "H2", c), ( "H3", d)]

/-- One iteration of the classification loop (source lines 173-190),
acting on the state `(title, outline)`. -/
def classifyStep (fm : List (String × ℚ)) (language : String)
    (st : Text × List Heading) (b : TextBlock) : Text × List Heading :=
  if fm.lookup "title" = some (round1 b.font_size) ∧ st.1 = [] then
    if b.page ≤ 2 ∧ b.text.length < 150 then (b.text, st.2) else st
  else if fm.lookup "H1" = some (round1 b.font_size) then
    if is_likely_heading b.text language = true ∨ b.text.length < 100 then
      (st.1, st.2 ++ [⟨ "H1", b.text, b.page⟩])
    else st
  else if fm.lookup "H2" = some (round1 b.font_size) then
    if is_likely_heading b.text language = true ∨ b.text.length < 100 then
      (st.1, st.2 ++ [⟨ "H2", b.text, b.page⟩])
    else st
  else if fm.lookup "H3" = some (round1 b.font_size) then
    if is_likely_heading b.text language = true ∨ b.text.length < 100 then
      (st.1, st.2 ++ [⟨ "H3", b.text, b.page⟩])
    else st
  else st

/-- The whole classification loop over `text_blocks`, starting from an
empty title and empty outline (source lines 170-190). -/
def classify (fm : List (String × ℚ)) (language : String)
    (blocks : List TextBlock) : Text × List Heading :=
  blocks.foldl (classifyStep fm language) ([], [])

/-- The title fallback (source lines 192-200): when the loop produced
no title and blocks exist, take the first block of maximal font size on
page 1 — but only if its text is shorter than 150 characters; there is
no further fallback. -/
def titleFallback (blocks : List TextBlock) (title : Text) : Text :=
  if title = [] ∧ blocks ≠ [] then
    match blocks.filter (fun b => decide (b.page = 1)) with
    | [] => title
    | c :: rest =>
      match (c :: rest).filter (fun b => decide (b.font_size =
          rest.foldl (fun m b => max m b.font_size) c.font_size)) with
      | [] => title
      | d :: _ => if d.text.length < 150 then d.text else title
  else title

/-- `clean_text_for_detection` (source lines 51-59): collapse
whitespace, blank every character outside `\w`, `\s`, U+0080-U+FFFF,
then strip. -/
def isWordCh (c : Char) : Bool := isCasedCh c || isDigitCh c || c == '_'

/-- Characters kept by the detection-cleaning character class. -/
def keepDetectCh (c : Char) : Bool :=
  isWordCh c || isWs c || ('\u0080' ≤ c && c ≤ '￿')

/-- The detection-cleaning function itself. -/
def clean_text_for_detection (t : Text) : Text :=
  if t = [] then []
  else stripWs ((collapseWs t).map (fun c => if keepDetectCh c then c else ' '))

/-- `detect_language` (source lines 37-49): the statistical detector is
the external collaborator `detect`; short cleaned input short-circuits
to `"unknown"`. -/
def detect_language (detect : Text → String) (t : Text) : String :=
  let clean := clean_text_for_detection t
  if (stripWs clean).length < 10 then "unknown" else detect clean

/-- Per-level heading counts for the statistics record
(source lines 213-216). -/
def levelCounts (o : List Heading) : List (String × Nat) :=
  [( "H1", (o.filter (fun h => h.level == "H1")).length),
   ( "H2", (o.filter (fun h => h.level == "H2")).length),
   ( "H3", (o.filter (fun h => h.level == "H3")).length)]

/-- The result record (source lines 202-218).  The `detected_fonts`
top-10 diagnostic is omitted: it is purely observational and nothing
downstream or in any claim reads it. -/
structure ExtractResult where
  title : Text
  outline : List Heading
  language : String
  font_mapping : List (String × ℚ)
  total_pages : Nat
  total_headings : Nat
  headings_by_level : List (String × Nat)
deriving DecidableEq, Repr

/-- Assemble the result from the page count, detected language and the
collected `(font sizes, text_blocks, all_text)` triple
(source lines 153-218). -/
def extractCore (totalPages : Nat) (language : String)
    (c : List ℚ × List TextBlock × Text) : ExtractResult :=
  let fm := font_mapping (uniqueSizesDesc c.1)
  let p := classify fm language c.2.1
  let ttl := titleFallback c.2.1 p.1
  ⟨ttl, p.2, language, fm, totalPages, p.2.length, levelCounts p.2⟩

/-- `extract_title_and_headings` (source lines 104-218) for a readable
document, with the language detector passed in.  The unreadable-file
branch (source lines 106-110) is I/O and sits outside the engine. -/
def extract (detect : Text → String) (doc : Doc) : ExtractResult :=
  extractCore doc.length (detect_language detect (collect doc).2.2) (collect doc)

/-- Number of outline entries on page `p`. -/
def countPage (o : List Heading) (p : Nat) : Nat :=
  (o.filter (fun h => decide (h.page = p))).length

/-- The case-folded, normalization-equalized key the spec's
deduplication rule speaks about. -/
def dedupKey (t : Text) : Text := (nfkc t).map toLowerCh

/-- Replace every span's bold flag by `g`, keeping size and text: the
input to the boldness-invariance statement. -/
def mapBold (g : Span → Bool) (doc : Doc) : Doc :=
  doc.map (fun pg => pg.map (fun bl => bl.map (fun ln => ln.map
    (fun s => Span.mk s.size s.text (g s)))))

/-- Fully collapsed text: whitespace characters are single ASCII spaces
with no run of two and none at either end — the shape `normalize_text`
guarantees on every non-RTL (hence every `'unknown'`-hinted) input. -/
def noLeadWs : Text → Bool
  | [] => true
  | c :: _ => !isWs c

/-- No trailing whitespace character. -/
def noTrailWs : Text → Bool
  | [] => true
  | [c] => !isWs c
  | _ :: c :: cs => noTrailWs (c :: cs)

/-- No two adjacent whitespace characters. -/
def noWsRun : Text → Bool
  | [] => true
  | [_] => true
  | c :: d :: rest => !(isWs c && isWs d) && noWsRun (d :: rest)

/-- Every whitespace character is a plain ASCII space. -/
def wsIsSpace (t : Text) : Bool := t.all (fun c => !isWs c || c == ' ')

/-- The conjunction of the four collapsed-shape conditions. -/
def cleanT (t : Text) : Prop :=
  wsIsSpace t = true ∧ noWsRun t = true ∧ noLeadWs t = true ∧
    noTrailWs t = true

/-- A language detector that always reports `'unknown'` — what the
pipeline sees when `langdetect` is unavailable. -/
def dUnknown : Text → String := fun _ => "unknown"

/-- Scenario E document: one title-sized and one H1-sized line on
page 1, an empty page 2, and six distinct H2-sized blocks on page 3. -/
def docE : Doc :=
  [ [ [ [⟨30, "T".toList, false⟩], [⟨20, "Intro".toList, false⟩] ] ],
    [],
    [ [ [⟨10, "A1".toList, false⟩], [⟨10, "A2".toList, false⟩],
        [⟨10, "A3".toList, false⟩], [⟨10, "A4".toList, false⟩],
        [⟨10, "A5".toList, false⟩], [⟨10, "A6".toList, false⟩] ] ] ]

/-- The level map of `docE`, used to exercise the classification loop
directly. -/
def fmE : List (String × ℚ) := [( "title", 30), ( "H1", 20), ( "H2", 10)]

/-- Six H2-sized blocks, all on page 3. -/
def blocksE : List TextBlock :=
  [⟨ "A1".toList, 10, 3⟩, ⟨ "A2".toList, 10, 3⟩, ⟨ "A3".toList, 10, 3⟩,
   ⟨ "A4".toList, 10, 3⟩, ⟨ "A5".toList, 10, 3⟩, ⟨ "A6".toList, 10, 3⟩]

/-- Scenario C document: the heading text `Conclusion` at the H1 style
on page 3 and again on page 8. -/
def docC2 : Doc :=
  [ [ [ [⟨30, "Doc Title".toList, false⟩] ] ],
    [],
    [ [ [⟨20, "Conclusion".toList, false⟩] ] ],
    [], [], [], [],
    [ [ [⟨20, "Conclusion".toList, false⟩] ] ] ]

/-- A document whose three H1-sized blocks exercise the acceptance
rule: a short text with `@` and a trailing period, a long plain text,
and a long text matching the chapter pattern. -/
def docC3 : Doc :=
  [ [ [ [⟨30, "Doc Title".toList, false⟩],
        [⟨20, "Contact: a@b.com.".toList, false⟩],
        [⟨20, List.replicate 120 'x', false⟩],
        [⟨20, ( "Chapter 5 ".toList ++ List.replicate 110 'x'), false⟩] ] ] ]

/-- Scenario B document: two consecutive same-style lines
`Chapter 1` then `Introduction` on page 1, below a title-sized line. -/
def docC4 : Doc :=
  [ [ [ [⟨30, "Doc Title".toList, false⟩],
        [⟨20, "Chapter 1".toList, false⟩],
        [⟨20, "Introduction".toList, false⟩] ] ] ]

/-- A document with five distinct font sizes; the fifth-largest block
text is `FifthLevel`. -/
def docC5 : Doc :=
  [ [ [ [⟨50, "Doc Title".toList, false⟩],
        [⟨40, "HeadA".toList, false⟩],
        [⟨30, "HeadB".toList, false⟩],
        [⟨20, "HeadC".toList, false⟩],
        [⟨10, "FifthLevel".toList, false⟩] ] ] ]

/-- A document with three distinct `(rounded size, bold)` combinations
but only two distinct rounded sizes. -/
def docC6 : Doc :=
  [ [ [ [⟨12, "Alpha".toList, true⟩],
        [⟨12, "Beta".toList, false⟩],
        [⟨9, "Gamma".toList, false⟩] ] ] ]

/-- `docC6` with every bold flag flipped. -/
def docC6b : Doc :=
  [ [ [ [⟨12, "Alpha".toList, false⟩],
        [⟨12, "Beta".toList, true⟩],
        [⟨9, "Gamma".toList, true⟩] ] ] ]

/-- A document whose single page-1 block has a 150-character text. -/
def docC7 : Doc := [ [ [ [⟨12, List.replicate 150 'a', false⟩] ] ] ]

/-- A two-page document with structure but not a single span. -/
def doc9 : Doc := [ [], [ [ [] ] ] ]

/-! ### Normalizer lemmas -/

theorem nfkcChar_fixed (c : Char) : ∀ d ∈ nfkcChar c, nfkcChar d = [d] := by
  intro d hd
  unfold nfkcChar at hd
  split_ifs at hd with h1 h2 h3 h4 h5 h6
  · simp at hd; subst hd; decide
  · simp at hd; rcases hd with rfl | rfl <;> decide
  · simp at hd; rcases hd with rfl | rfl <;> decide
  · simp at hd; subst hd; decide
  · simp at hd; subst hd; decide
  · simp at hd; subst hd; decide
  · simp at hd; subst hd
    simp [nfkcChar, h1, h2, h3, h4, h5, h6]

theorem nfkc_cons (c : Char) (t : Text) :
    nfkc (c :: t) = nfkcChar c ++ nfkc t := rfl

theorem nfkc_fixed_of_all {t : Text} (h : ∀ c ∈ t, nfkcChar c = [c]) :
    nfkc t = t := by
  induction t with
  | nil => rfl
  | cons c t ih =>
    rw [nfkc_cons, h c (by simp), ih (fun d hd => h d (by simp [hd]))]
    rfl

theorem mem_nfkc_fixed {t : Text} : ∀ d ∈ nfkc t, nfkcChar d = [d] := by
  induction t with
  | nil => intro d hd; simp [nfkc] at hd
  | cons c t ih =>
    intro d hd
    rw [nfkc_cons] at hd
    rcases List.mem_append.1 hd with h | h
    · exact nfkcChar_fixed c d h
    · exact ih d h

theorem nfkc_idem (t : Text) : nfkc (nfkc t) = nfkc t :=
  nfkc_fixed_of_all mem_nfkc_fixed

theorem mem_collapseWs {t : Text} : ∀ c ∈ collapseWs t, c = ' ' ∨ c ∈ t := by
  induction t with
  | nil => intro c hc; simp [collapseWs] at hc
  | cons a t ih =>
    intro c hc
    cases t with
    | nil =>
      simp only [collapseWs] at hc
      split_ifs at hc <;> simp at hc <;> simp [hc]
    | cons d rest =>
      simp only [collapseWs] at hc
      split_ifs at hc with h1 h2
      · rcases ih c hc with h | h
        · exact Or.inl h
        · exact Or.inr (List.mem_cons_of_mem a h)
      · rcases List.mem_cons.1 hc with rfl | h
        · exact Or.inl rfl
        · rcases ih c h with h' | h'
          · exact Or.inl h'
          · exact Or.inr (List.mem_cons_of_mem a h')
      · rcases List.mem_cons.1 hc with rfl | h
        · simp
        · rcases ih c h with h' | h'
          · exact Or.inl h'
          · exact Or.inr (List.mem_cons_of_mem _ h')

theorem mem_dropWs {t : Text} {c : Char} (h : c ∈ t.dropWhile isWs) :
    c ∈ t := by
  induction t with
  | nil => simpa using h
  | cons a t ih =>
    rw [List.dropWhile_cons] at h
    split_ifs at h with ha
    · exact List.mem_cons_of_mem a (ih h)
    · exact h

theorem mem_stripEnd {t : Text} {c : Char} (h : c ∈ stripEnd t) : c ∈ t := by
  induction t with
  | nil => simpa [stripEnd] using h
  | cons a t ih =>
    simp only [stripEnd] at h
    split_ifs at h with hc
    · simp at h
    · rcases List.mem_cons.1 h with rfl | h'
      · exact List.mem_cons_self c t
      · exact List.mem_cons_of_mem a (ih h')

theorem mem_stripWs {t : Text} {c : Char} (h : c ∈ stripWs t) : c ∈ t :=
  mem_dropWs (mem_stripEnd h)

theorem collapse_head (d : Char) (rest : Text) :
    ∃ x l, collapseWs (d :: rest) = x :: l ∧ isWs x = isWs d ∧
      (isWs x = true → x = ' ') := by
  induction rest generalizing d with
  | nil =>
    cases hd : isWs d with
    | true =>
      exact ⟨' ', [], by simp [collapseWs, hd], by decide, fun _ => rfl⟩
    | false =>
      exact ⟨d, [], by simp [collapseWs, hd], hd,
        fun h => absurd h (by simp [hd])⟩
  | cons e r ih =>
    cases hd : isWs d with
    | true =>
      cases he : isWs e with
      | true =>
        obtain ⟨x, l, hxl, hx, hsp⟩ := ih e
        refine ⟨x, l, ?_, hx.trans he, hsp⟩
        simp [collapseWs, hd, he, hxl]
      | false =>
        refine ⟨' ', collapseWs (e :: r), ?_, by decide, fun _ => rfl⟩
        simp [collapseWs, hd, he]
    | false =>
      refine ⟨d, collapseWs (e :: r), ?_, hd,
        fun h => absurd h (by simp [hd])⟩
      simp [collapseWs, hd]

theorem collapse_wsIsSpace (t : Text) : wsIsSpace (collapseWs t) = true := by
  induction t with
  | nil => decide
  | cons a t ih =>
    cases t with
    | nil =>
      cases ha : isWs a with
      | true => rw [show collapseWs [a] = [' '] by simp [collapseWs, ha]]; decide
      | false =>
        rw [show collapseWs [a] = [a] by simp [collapseWs, ha]]
        simp [wsIsSpace, ha]
    | cons d rest =>
      simp only [collapseWs]
      split_ifs with h1 h2
      · exact ih
      · simp only [wsIsSpace, List.all_cons, Bool.and_eq_true] at ih ⊢
        exact ⟨by decide, ih⟩
      · simp only [wsIsSpace, List.all_cons, Bool.and_eq_true] at ih ⊢
        refine ⟨?_, ih⟩
        rw [Bool.not_eq_true] at h2
        simp [h2]

theorem noWsRun_tail {c : Char} {t : Text} (h : noWsRun (c :: t) = true) :
    noWsRun t = true := by
  match t with
  | [] => rfl
  | d :: rest => simp only [noWsRun, Bool.and_eq_true] at h; exact h.2

theorem collapse_noWsRun (t : Text) : noWsRun (collapseWs t) = true := by
  induction t with
  | nil => decide
  | cons a t ih =>
    cases t with
    | nil =>
      cases ha : isWs a <;> simp [collapseWs, ha, noWsRun]
    | cons d rest =>
      simp only [collapseWs]
      split_ifs with h1 h2
      · exact ih
      · obtain ⟨x, l, hxl, hx, _⟩ := collapse_head d rest
        rw [hxl]
        have hnr : noWsRun (x :: l) = true := by rw [← hxl]; exact ih
        simp only [noWsRun, Bool.and_eq_true]
        refine ⟨?_, hnr⟩
        have hd : isWs d = false := by
          cases hd' : isWs d
          · rfl
          · exact absurd (by simp [h2, hd']) h1
        simp [hx, hd]
      · obtain ⟨x, l, hxl, hx, _⟩ := collapse_head d rest
        rw [hxl]
        have hnr : noWsRun (x :: l) = true := by rw [← hxl]; exact ih
        simp only [noWsRun, Bool.and_eq_true]
        refine ⟨?_, hnr⟩
        rw [Bool.not_eq_true] at h2
        simp [h2]

theorem wsIsSpace_head {a : Char} {t : Text}
    (h : wsIsSpace (a :: t) = true) :
    (isWs a = true → a = ' ') ∧ wsIsSpace t = true := by
  simp only [wsIsSpace, List.all_cons, Bool.and_eq_true, Bool.or_eq_true,
    Bool.not_eq_true', beq_iff_eq] at h
  refine ⟨fun ha => ?_, h.2⟩
  rcases h.1 with h' | h'
  · rw [ha] at h'; cases h'
  · exact h'

theorem collapse_eq_self {t : Text} (h1 : wsIsSpace t = true)
    (h2 : noWsRun t = true) : collapseWs t = t := by
  induction t with
  | nil => rfl
  | cons a t ih =>
    obtain ⟨hhead, htail⟩ := wsIsSpace_head h1
    cases t with
    | nil =>
      cases ha : isWs a with
      | true => simp [collapseWs, ha, hhead ha]
      | false => simp [collapseWs, ha]
    | cons d rest =>
      simp only [noWsRun, Bool.and_eq_true] at h2
      have hcond : (isWs a && isWs d) = false := by
        cases hx : isWs a <;> cases hy : isWs d <;> simp_all
      simp only [collapseWs]
      rw [if_neg (by rw [hcond]; exact Bool.false_ne_true)]
      rw [ih htail h2.2]
      cases ha : isWs a with
      | true => simp [ha, hhead ha]
      | false => simp [ha]

theorem dropWs_eq_self {t : Text} (h : noLeadWs t = true) :
    t.dropWhile isWs = t := by
  cases t with
  | nil => rfl
  | cons a t =>
    simp only [noLeadWs, Bool.not_eq_true'] at h
    simp [List.dropWhile_cons, h]

theorem stripEnd_eq_self {t : Text} (h : noTrailWs t = true) :
    stripEnd t = t := by
  induction t with
  | nil => rfl
  | cons a t ih =>
    cases t with
    | nil =>
      simp only [noTrailWs, Bool.not_eq_true'] at h
      simp [stripEnd, h]
    | cons d rest =>
      have h' : noTrailWs (d :: rest) = true := h
      rw [show stripEnd (a :: d :: rest) =
        (if stripEnd (d :: rest) = [] ∧ isWs a then []
         else a :: stripEnd (d :: rest)) from rfl]
      simp only [ih h']
      simp

theorem noLead_dropWs (t : Text) : noLeadWs (t.dropWhile isWs) = true := by
  induction t with
  | nil => rfl
  | cons a t ih =>
    rw [List.dropWhile_cons]
    split_ifs with ha
    · exact ih
    · simpa [noLeadWs] using ha

theorem stripEnd_shape (a : Char) (t : Text) :
    stripEnd (a :: t) = [] ∨ stripEnd (a :: t) = a :: stripEnd t := by
  rw [show stripEnd (a :: t) =
    (if stripEnd t = [] ∧ isWs a then [] else a :: stripEnd t) from rfl]
  split_ifs with h
  · exact Or.inl rfl
  · exact Or.inr rfl

theorem noTrail_stripEnd (t : Text) : noTrailWs (stripEnd t) = true := by
  induction t with
  | nil => rfl
  | cons a t ih =>
    rw [show stripEnd (a :: t) =
      (if stripEnd t = [] ∧ isWs a then [] else a :: stripEnd t) from rfl]
    split_ifs with h
    · rfl
    · rcases hr : stripEnd t with _ | ⟨d, rest⟩
      · have ha : isWs a = false := by
          cases hw : isWs a
          · rfl
          · exact absurd ⟨hr, hw⟩ h
        simp [noTrailWs, ha]
      · have : noTrailWs (d :: rest) = true := by rw [← hr]; exact ih
        simpa [noTrailWs] using this

theorem noLead_stripEnd {t : Text} (h : noLeadWs t = true) :
    noLeadWs (stripEnd t) = true := by
  cases t with
  | nil => rfl
  | cons a t =>
    rcases stripEnd_shape a t with h' | h'
    · rw [h']; rfl
    · rw [h']
      simpa [noLeadWs] using h

theorem stripWs_noLead (t : Text) : noLeadWs (stripWs t) = true :=
  noLead_stripEnd (noLead_dropWs t)

theorem stripWs_noTrail (t : Text) : noTrailWs (stripWs t) = true :=
  noTrail_stripEnd _

theorem stripWs_eq_self {t : Text} (h1 : noLeadWs t = true)
    (h2 : noTrailWs t = true) : stripWs t = t := by
  rw [stripWs, dropWs_eq_self h1, stripEnd_eq_self h2]

theorem stripWs_idem (t : Text) : stripWs (stripWs t) = stripWs t :=
  stripWs_eq_self (stripWs_noLead t) (stripWs_noTrail t)

theorem wsIsSpace_of_mem {t : Text}
    (h : ∀ c ∈ t, isWs c = true → c = ' ') : wsIsSpace t = true := by
  simp only [wsIsSpace, List.all_eq_true]
  intro c hc
  cases hw : isWs c
  · simp
  · simp [h c hc hw]

theorem wsIsSpace_mem {t : Text} (h : wsIsSpace t = true) :
    ∀ c ∈ t, isWs c = true → c = ' ' := by
  simp only [wsIsSpace, List.all_eq_true] at h
  intro c hc hw
  have := h c hc
  simp only [Bool.or_eq_true, Bool.not_eq_true', beq_iff_eq] at this
  rcases this with h' | h'
  · rw [hw] at h'; cases h'
  · exact h'

theorem wsIsSpace_stripWs {t : Text} (h : wsIsSpace t = true) :
    wsIsSpace (stripWs t) = true :=
  wsIsSpace_of_mem fun c hc => wsIsSpace_mem h c (mem_stripWs hc)

theorem noWsRun_dropWs {t : Text} (h : noWsRun t = true) :
    noWsRun (t.dropWhile isWs) = true := by
  induction t with
  | nil => rfl
  | cons a t ih =>
    rw [List.dropWhile_cons]
    split_ifs with ha
    · exact ih (noWsRun_tail h)
    · exact h

theorem noWsRun_stripEnd {t : Text} (h : noWsRun t = true) :
    noWsRun (stripEnd t) = true := by
  induction t with
  | nil => rfl
  | cons a t ih =>
    rcases stripEnd_shape a t with h' | h'
    · rw [h']; rfl
    · rw [h']
      cases t with
      | nil => simp [stripEnd, noWsRun]
      | cons d rest =>
        rcases stripEnd_shape d rest with h2 | h2
        · rw [h2]; rfl
        · rw [h2]
          simp only [noWsRun, Bool.and_eq_true] at h ⊢
          refine ⟨h.1, ?_⟩
          have := ih h.2
          rw [h2] at this
          exact this

theorem noWsRun_stripWs {t : Text} (h : noWsRun t = true) :
    noWsRun (stripWs t) = true :=
  noWsRun_stripEnd (noWsRun_dropWs h)

theorem cleanT_strip_collapse (t : Text) : cleanT (stripWs (collapseWs t)) :=
  ⟨wsIsSpace_stripWs (collapse_wsIsSpace t),
   noWsRun_stripWs (collapse_noWsRun t),
   stripWs_noLead _, stripWs_noTrail _⟩

theorem cleanT_fix {t : Text} (h : cleanT t) :
    collapseWs t = t ∧ stripWs t = t :=
  ⟨collapse_eq_self h.1 h.2.1, stripWs_eq_self h.2.2.1 h.2.2.2⟩

/-! ### Claim C8: idempotence of the normalizer -/

/-- Claim C8 (confirmed): `normalize_text` is idempotent — for every
text and every language hint, a second application is the identity.
Each application is NFKC (modelled character table), then trim-only for
RTL hints, else whitespace collapsing plus trim. -/
theorem C8_normalize_text_idem (t : Text) (language : String) :
    normalize_text (normalize_text t language) language =
      normalize_text t language := by
  by_cases h0 : t = []
  · subst h0; simp [normalize_text]
  · by_cases hl : language ∈ rtl_languages
    · have hinner : normalize_text t language = stripWs (nfkc t) := by
        rw [normalize_text, if_neg h0, if_pos hl]
      rw [hinner]
      by_cases hy : stripWs (nfkc t) = []
      · rw [hy]; simp [normalize_text]
      · have houter : normalize_text (stripWs (nfkc t)) language =
            stripWs (nfkc (stripWs (nfkc t))) := by
          rw [normalize_text, if_neg hy, if_pos hl]
        rw [houter, nfkc_fixed_of_all
          (fun c hc => mem_nfkc_fixed c (mem_stripWs hc))]
        exact stripWs_idem _
    · have hinner : normalize_text t language =
          stripWs (collapseWs (nfkc t)) := by
        rw [normalize_text, if_neg h0, if_neg hl]
      rw [hinner]
      by_cases hy : stripWs (collapseWs (nfkc t)) = []
      · rw [hy]; simp [normalize_text]
      · have houter : normalize_text (stripWs (collapseWs (nfkc t)))
            language =
            stripWs (collapseWs (nfkc (stripWs (collapseWs (nfkc t))))) := by
          rw [normalize_text, if_neg hy, if_neg hl]
        have hclean := cleanT_strip_collapse (nfkc t)
        have hfix : nfkc (stripWs (collapseWs (nfkc t))) =
            stripWs (collapseWs (nfkc t)) := by
          refine nfkc_fixed_of_all (fun c hc => ?_)
          rcases mem_collapseWs c (mem_stripWs hc) with h | h
          · subst h; decide
          · exact mem_nfkc_fixed c h
        rw [houter, hfix, (cleanT_fix hclean).1, (cleanT_fix hclean).2]

/-! ### Collapsed shape is preserved by concatenation -/

theorem cleanT_nil : cleanT [] := ⟨rfl, rfl, rfl, rfl⟩

theorem noLeadWs_append {a b : Text} (ha : noLeadWs a = true)
    (hb : noLeadWs b = true) : noLeadWs (a ++ b) = true := by
  cases a with
  | nil => simpa using hb
  | cons x xs => simpa [noLeadWs] using ha

theorem noTrailWs_append_right {a b : Text} (hb0 : b ≠ [])
    (hb : noTrailWs b = true) : noTrailWs (a ++ b) = true := by
  induction a with
  | nil => simpa using hb
  | cons x xs ih =>
    rcases hx : xs ++ b with _ | ⟨z, zs⟩
    · rcases List.append_eq_nil.mp hx with ⟨-, h2⟩; exact absurd h2 hb0
    · simp only [List.cons_append]
      rw [hx]
      have heq : noTrailWs (x :: z :: zs) = noTrailWs (z :: zs) := rfl
      rw [heq, ← hx]
      exact ih

theorem noTrailWs_append {a b : Text} (ha : noTrailWs a = true)
    (hb : noTrailWs b = true) : noTrailWs (a ++ b) = true := by
  cases b with
  | nil => simpa using ha
  | cons y ys => exact noTrailWs_append_right (by simp) hb

theorem noWsRun_append {a b : Text} (hb : noWsRun b = true)
    (hlb : noLeadWs b = true) :
    ∀ (_ : noWsRun a = true) (_ : noTrailWs a = true),
      noWsRun (a ++ b) = true := by
  induction a with
  | nil => intro _ _; simpa using hb
  | cons x xs ih =>
    intro ha hta
    cases xs with
    | nil =>
      cases b with
      | nil => rfl
      | cons y ys =>
        simp only [List.cons_append, List.nil_append, noWsRun,
          Bool.and_eq_true]
        refine ⟨?_, hb⟩
        have hx : isWs x = false := by simpa [noTrailWs] using hta
        have hy : isWs y = false := by simpa [noLeadWs] using hlb
        simp [hx]
    | cons w ws =>
      simp only [List.cons_append]
      simp only [noWsRun, Bool.and_eq_true] at ha
      have hta' : noTrailWs (w :: ws) = true := hta
      have hrec := ih ha.2 hta'
      simp only [List.cons_append] at hrec
      simp only [noWsRun, Bool.and_eq_true]
      exact ⟨ha.1, hrec⟩

theorem cleanT_append {a b : Text} (ha : cleanT a) (hb : cleanT b) :
    cleanT (a ++ b) := by
  obtain ⟨ha1, ha2, ha3, ha4⟩ := ha
  obtain ⟨hb1, hb2, hb3, hb4⟩ := hb
  refine ⟨?_, ?_, ?_, ?_⟩
  · simp only [wsIsSpace, List.all_append, Bool.and_eq_true]
    exact ⟨ha1, hb1⟩
  · exact noWsRun_append hb2 hb3 ha2 ha4
  · exact noLeadWs_append ha3 hb3
  · exact noTrailWs_append ha4 hb4

theorem cleanT_flatten {ls : List Text} (h : ∀ x ∈ ls, cleanT x) :
    cleanT ls.flatten := by
  induction ls with
  | nil => exact cleanT_nil
  | cons x xs ih =>
    rw [List.flatten_cons]
    exact cleanT_append (h x (by simp))
      (ih fun y hy => h y (by simp [hy]))

theorem cleanT_stripWs {t : Text} (h1 : wsIsSpace t = true)
    (h2 : noWsRun t = true) : cleanT (stripWs t) :=
  ⟨wsIsSpace_stripWs h1, noWsRun_stripWs h2, stripWs_noLead _,
    stripWs_noTrail _⟩

theorem normalize_unknown_clean (t : Text) :
    cleanT (normalize_text t "unknown") := by
  by_cases h0 : t = []
  · subst h0
    rw [show normalize_text [] "unknown" = [] by simp [normalize_text]]
    exact cleanT_nil
  · rw [normalize_text, if_neg h0, if_neg (by decide)]
    exact cleanT_strip_collapse _

theorem lineText_clean (ln : PLine) : cleanT (lineText ln) := by
  rw [lineText]
  refine cleanT_flatten fun x hx => ?_
  rcases List.mem_map.1 hx with ⟨s, -, rfl⟩
  exact normalize_unknown_clean s.text

/-! ### The grouper produces one block per non-empty line -/

theorem processLines_text {n : Nat} {ls : List PLine} :
    ∀ b ∈ (processLines n ls).2.1,
      cleanT b.text ∧ b.page = n ∧
        ∃ ln ∈ ls, b.text = stripWs (lineText ln) ∧
          b.font_size = lineFontSize ln := by
  induction ls with
  | nil => intro b hb; simp [processLines] at hb
  | cons ln ls ih =>
    intro b hb
    simp only [processLines] at hb
    rcases List.mem_append.1 hb with h | h
    · have hb' : b = ⟨stripWs (lineText ln), lineFontSize ln, n⟩ := by
        split_ifs at h
        · simpa using h
        · simp at h
      subst hb'
      refine ⟨?_, rfl, ln, by simp, rfl, rfl⟩
      obtain ⟨c1, c2, -, -⟩ := lineText_clean ln
      exact cleanT_stripWs c1 c2
    · obtain ⟨hc, hp, ln', hln', he⟩ := ih b h
      exact ⟨hc, hp, ln', by simp [hln'], he⟩

theorem collect_blocks_clean {doc : Doc} :
    ∀ b ∈ (collect doc).2.1, cleanT b.text := by
  rw [collect]
  generalize 1 = n
  induction doc generalizing n with
  | nil => intro b hb; simp [collectAux] at hb
  | cons pg rest ih =>
    intro b hb
    simp only [collectAux] at hb
    rcases List.mem_append.1 hb with h | h
    · exact (processLines_text b h).1
    · exact ih n.succ b h

/-! ### Classification-loop lemmas -/

theorem classifyStep_outline (fm : List (String × ℚ)) (lang : String)
    (st : Text × List Heading) (b : TextBlock) :
    ∀ h ∈ (classifyStep fm lang st b).2,
      h ∈ st.2 ∨ (h.text = b.text ∧ h.page = b.page) := by
  intro h hh
  unfold classifyStep at hh
  split_ifs at hh <;>
    first
      | exact Or.inl hh
      | · rcases List.mem_append.1 hh with h' | h'
          · exact Or.inl h'
          · simp only [List.mem_singleton] at h'
            subst h'
            exact Or.inr ⟨rfl, rfl⟩

theorem classify_outline_from (fm : List (String × ℚ)) (lang : String) :
    ∀ (blocks : List TextBlock) (st : Text × List Heading),
      ∀ h ∈ (blocks.foldl (classifyStep fm lang) st).2,
        h ∈ st.2 ∨ ∃ b ∈ blocks, h.text = b.text ∧ h.page = b.page := by
  intro blocks
  induction blocks with
  | nil => intro st h hh; exact Or.inl hh
  | cons b bs ih =>
    intro st h hh
    rw [List.foldl_cons] at hh
    rcases ih _ h hh with h' | ⟨b', hb', he⟩
    · rcases classifyStep_outline fm lang st b h h' with h2 | h2
      · exact Or.inl h2
      · exact Or.inr ⟨b, by simp, h2⟩
    · exact Or.inr ⟨b', by simp [hb'], he⟩

theorem classify_h2_from (fm : List (String × ℚ)) (lang : String) :
    ∀ (blocks : List TextBlock) (st : Text × List Heading),
      (∀ b ∈ blocks,
        fm.lookup "title" ≠ some (round1 b.font_size) ∧
        fm.lookup "H1" ≠ some (round1 b.font_size) ∧
        fm.lookup "H2" = some (round1 b.font_size) ∧
        b.text.length < 100) →
      (blocks.foldl (classifyStep fm lang) st).2 =
        st.2 ++ blocks.map (fun b => ⟨ "H2", b.text, b.page⟩) := by
  intro blocks
  induction blocks with
  | nil => intro st _; simp
  | cons b bs ih =>
    intro st hall
    obtain ⟨h1, h2, h3, h4⟩ := hall b (by simp)
    rw [List.foldl_cons]
    have hstep : classifyStep fm lang st b =
        (st.1, st.2 ++ [⟨ "H2", b.text, b.page⟩]) := by
      unfold classifyStep
      rw [if_neg (fun hc => h1 hc.1), if_neg h2, if_pos h3,
        if_pos (Or.inr h4)]
    rw [hstep, ih _ (fun b' hb' => hall b' (by simp [hb']))]
    simp

/-! ### Claim C1: per-page cap -/

set_option maxRecDepth 8000

/-- Claim C1 counterexample: on `docE` (Scenario E: six distinct blocks
all resolved to H2 on page 3) the outline keeps all six page-3
headings — more than the claimed cap of five. -/
theorem C1_per_page_cap_ce :
    5 < countPage (extract dUnknown docE).outline 3 := by decide

/-- Claim C1 amended: the classification loop has no per-page cap — a
run of blocks that are all resolved to H2 and pass the length test is
appended in full, so a page receives as many headings as it has
qualifying blocks (six distinct H2 blocks on page 3 all appear). -/
theorem C1_no_per_page_cap (fm : List (String × ℚ)) (lang : String)
    (blocks : List TextBlock) (p : Nat)
    (hall : ∀ b ∈ blocks,
      fm.lookup "title" ≠ some (round1 b.font_size) ∧
      fm.lookup "H1" ≠ some (round1 b.font_size) ∧
      fm.lookup "H2" = some (round1 b.font_size) ∧
      b.text.length < 100 ∧ b.page = p) :
    countPage (classify fm lang blocks).2 p = blocks.length := by
  rw [classify, classify_h2_from fm lang blocks ([], [])
    (fun b hb => ⟨(hall b hb).1, (hall b hb).2.1, (hall b hb).2.2.1,
      (hall b hb).2.2.2.1⟩)]
  rw [List.nil_append, countPage, List.filter_map, List.length_map]
  have hself : List.filter ((fun h => decide (h.page = p)) ∘
      fun b => (⟨ "H2", b.text, b.page⟩ : Heading)) blocks = blocks := by
    apply List.filter_eq_self.mpr
    intro b hb
    simp [Function.comp, (hall b hb).2.2.2.2]
  rw [hself]

/-- Witness for C1: six H2 blocks on page 3 yield six page-3 outline
entries. -/
theorem C1_no_per_page_cap_witness :
    countPage (classify fmE "unknown" blocksE).2 3 = 6 := by
  have h := C1_no_per_page_cap fmE "unknown" blocksE 3 (by decide)
  simpa using h

/-! ### Claim C2: deduplication -/

/-- Claim C2 counterexample: on `docC2` (Scenario C: `Conclusion` at
the same style on pages 3 and 8) the outline's case-folded,
normalization-equalized keys are not pairwise distinct — the repeated
heading is kept, not deduplicated. -/
theorem C2_dedup_ce :
    ¬ List.Nodup
      ((extract dUnknown docC2).outline.map (fun h => dedupKey h.text)) := by
  decide

/-- Claim C2 amended: no deduplication is performed — when the same
heading text occurs at the same style on two different pages, both
occurrences appear in the outline, in reading order. -/
theorem C2_no_dedup :
    (extract dUnknown docC2).outline =
      [⟨ "H1", "Conclusion".toList, 3⟩,
       ⟨ "H1", "Conclusion".toList, 8⟩] := by decide

/-! ### Claim C3: heading rejection rules -/

/-- Claim C3 counterexample: a heading-level block whose text ends with
a sentence-terminal period and contains `@` appears in the outline of
`docC3` — none of the claimed rejection rules exists. -/
theorem C3_reject_rules_ce :
    (⟨ "H1", "Contact: a@b.com.".toList, 1⟩ : Heading) ∈
      (extract dUnknown docC3).outline ∧
    "Contact: a@b.com.".toList.getLast? = some '.' ∧
    '@' ∈ "Contact: a@b.com.".toList := by decide

/-- Claim C3 amended: a block routed to a heading level is accepted
exactly when `is_likely_heading` holds or its text is shorter than 100
characters; there is no word-count, trailing-period, `@`, or
colon-count rejection.  On `docC3`: the short text with `@` and a
trailing period is kept, the 120-character plain text is dropped by the
length test alone, and a 120-character text matching the chapter
pattern is kept despite its length. -/
theorem C3_accept_rule :
    (extract dUnknown docC3).outline =
      [⟨ "H1", "Contact: a@b.com.".toList, 1⟩,
       ⟨ "H1", ( "Chapter 5 ".toList ++ List.replicate 110 'x'), 1⟩] := by
  decide

/-! ### Claim C4: line merging -/

/-- Claim C4 counterexample: on `docC4` (Scenario B) the grouper does
not merge the two consecutive same-style lines — no block carries the
merged text, and the two lines are classified as two separate
headings. -/
theorem C4_merge_ce :
    "Chapter 1 Introduction".toList ∉
      ((collect docC4).2.1).map (fun b => b.text) ∧
    (extract dUnknown docC4).outline.length = 2 := by decide

/-- Claim C4 amended: every non-empty line becomes its own block —
consecutive same-style lines are kept separate, and `Chapter 1` then
`Introduction` yield two blocks and two separate headings. -/
theorem C4_one_block_per_line :
    ((collect docC4).2.1).map (fun b => b.text) =
      [ "Doc Title".toList, "Chapter 1".toList, "Introduction".toList] ∧
    (extract dUnknown docC4).outline =
      [⟨ "H1", "Chapter 1".toList, 1⟩,
       ⟨ "H1", "Introduction".toList, 1⟩] := by decide

/-! ### Claim C5: level assignment -/

/-- Claim C5 counterexample: `docC5` has five distinct style keys, yet
its level map assigns no key to H4 and the fifth-ranked block never
reaches the outline. -/
theorem C5_h4_ce :
    (uniqueSizesDesc (collect docC5).1).length = 5 ∧
    (extract dUnknown docC5).font_mapping.lookup "H4" = none ∧
    (extract dUnknown docC5).outline =
      [⟨ "H1", "HeadA".toList, 1⟩, ⟨ "H2", "HeadB".toList, 1⟩,
       ⟨ "H3", "HeadC".toList, 1⟩] := by decide

/-- Claim C5 amended: the level map assigns, in descending size order,
only `title`, `H1`, `H2`, `H3` — never `H4`; with four or more distinct
keys the first four get levels and any further key gets none. -/
theorem C5_no_h4 (us : List ℚ) :
    (font_mapping us).lookup "H4" = none ∧
    (∀ a b c d rest, us = a :: b :: c :: d :: rest →
      (font_mapping us).lookup "title" = some a ∧
      (font_mapping us).lookup "H1" = some b ∧
      (font_mapping us).lookup "H2" = some c ∧
      (font_mapping us).lookup "H3" = some d) := by
  constructor
  · rcases us with _ | ⟨a, _ | ⟨b, _ | ⟨c, _ | ⟨d, rest⟩⟩⟩⟩ <;> rfl
  · rintro a b c d rest rfl
    exact ⟨rfl, rfl, rfl, rfl⟩

/-- Witness for C5 at a five-key style list. -/
theorem C5_no_h4_witness :
    (font_mapping [(50 : ℚ), 40, 30, 20, 10]).lookup "H4" = none ∧
    (font_mapping [(50 : ℚ), 40, 30, 20, 10]).lookup "H3" = some 20 :=
  ⟨(C5_no_h4 [50, 40, 30, 20, 10]).1,
   ((C5_no_h4 [50, 40, 30, 20, 10]).2 50 40 30 20 [10] rfl).2.2.2⟩

/-! ### Claim C6: style identity ignores boldness -/

theorem flatten_map_map {α β : Type} (f : α → β) (L : List (List α)) :
    (L.map (List.map f)).flatten = L.flatten.map f := by
  induction L with
  | nil => rfl
  | cons x xs ih =>
    simp only [List.map_cons, List.flatten_cons, List.map_append, ih]

theorem lineSizes_mapBold (g : Span → Bool) (ln : PLine) :
    lineSizes (ln.map (fun s => Span.mk s.size s.text (g s))) =
      lineSizes ln := by
  simp only [lineSizes, List.map_map]
  rfl

theorem lineText_mapBold (g : Span → Bool) (ln : PLine) :
    lineText (ln.map (fun s => Span.mk s.size s.text (g s))) =
      lineText ln := by
  simp only [lineText, List.map_map]
  rfl

theorem lineFontSize_mapBold (g : Span → Bool) (ln : PLine) :
    lineFontSize (ln.map (fun s => Span.mk s.size s.text (g s))) =
      lineFontSize ln := by
  simp only [lineFontSize, List.foldl_map]

theorem processLines_mapBold (g : Span → Bool) (n : Nat) (ls : List PLine) :
    processLines n
      (ls.map (fun ln => ln.map (fun s => Span.mk s.size s.text (g s)))) =
      processLines n ls := by
  induction ls with
  | nil => rfl
  | cons ln ls ih =>
    simp only [List.map_cons, processLines, ih, lineSizes_mapBold,
      lineText_mapBold, lineFontSize_mapBold]

theorem collectAux_mapBold (g : Span → Bool) (doc : Doc) :
    ∀ n, collectAux n (mapBold g doc) = collectAux n doc := by
  induction doc with
  | nil => intro n; rfl
  | cons pg rest ih =>
    intro n
    show collectAux n
      ((pg.map fun bl => bl.map fun ln => ln.map
        (fun s => Span.mk s.size s.text (g s))) :: mapBold g rest) = _
    simp only [collectAux, ih (n + 1)]
    have hpl : pageLines (pg.map fun bl => bl.map fun ln => ln.map
        (fun s => Span.mk s.size s.text (g s))) =
        (pageLines pg).map fun ln => ln.map
          (fun s => Span.mk s.size s.text (g s)) := by
      simp only [pageLines]
      exact flatten_map_map _ pg
    rw [hpl, processLines_mapBold]

theorem collect_mapBold (g : Span → Bool) (doc : Doc) :
    collect (mapBold g doc) = collect doc := collectAux_mapBold g doc 1

/-- Claim C6 counterexample: in `docC6` the spans `Alpha` (bold) and
`Beta` (not bold) have equal rounded size 12 but different boldness;
the frequency table keeps only two distinct style keys, `[12, 9]` — not
three — and flipping every bold flag leaves the whole extraction result
unchanged. -/
theorem C6_bold_key_ce :
    uniqueSizesDesc (collect docC6).1 = [12, 9] ∧
    extract dUnknown docC6b = extract dUnknown docC6 := by decide

/-- Claim C6 amended: style identity is the rounded size alone — the
bold flag is never read, so the entire extraction result is invariant
under arbitrary changes of every span's boldness. -/
theorem C6_bold_invariant (g : Span → Bool) (detect : Text → String)
    (doc : Doc) : extract detect (mapBold g doc) = extract detect doc := by
  unfold extract
  rw [collect_mapBold]
  have hl : (mapBold g doc).length = doc.length := by
    simp [mapBold]
  rw [hl]

/-! ### Claim C7: title fallback -/

/-- Claim C7 counterexample: `docC7` has a non-empty text block on
page 1, yet the returned title is empty — there is no final
first-non-empty-block fallback without length filtering. -/
theorem C7_fallback_ce :
    (extract dUnknown docC7).title = [] ∧
    (collect docC7).2.1 = [⟨List.replicate 150 'a', 12, 1⟩] := by decide

/-- Claim C7 amended: the fallback takes the first maximal-font block
of page 1 only when its text is shorter than 150 characters; when every
page-1 block has text of length at least 150, the title stays empty
even though the document has text. -/
theorem C7_fallback_length_gate (blocks : List TextBlock)
    (h : ∀ b ∈ blocks, b.page = 1 → 150 ≤ b.text.length) :
    titleFallback blocks [] = [] := by
  unfold titleFallback
  split_ifs with h1
  · split
    next => rfl
    next c rest hfp =>
      split
      next => rfl
      next d l hfc =>
        have hd0 : d ∈ c :: rest := by
          have hmem := List.mem_cons_self d l
          rw [← hfc] at hmem
          exact (List.mem_filter.1 hmem).1
        rw [← hfp] at hd0
        obtain ⟨hmem, hp⟩ := List.mem_filter.1 hd0
        have hp' : d.page = 1 := by simpa using hp
        have hlen := h d hmem hp'
        rw [if_neg (by omega)]
  · rfl

/-- Witness for C7: a single page-1 block with a 150-character text
leaves the fallback title empty. -/
theorem C7_fallback_length_gate_witness :
    titleFallback [⟨List.replicate 150 'a', 12, 1⟩] [] = [] :=
  C7_fallback_length_gate _ (by decide)

/-! ### Claim C9: empty documents -/

theorem processLines_noSpans {n : Nat} {ls : List PLine}
    (h : ∀ ln ∈ ls, ln = ([] : PLine)) :
    processLines n ls = ([], [], []) := by
  induction ls with
  | nil => rfl
  | cons ln ls ih =>
    have hln := h ln (by simp)
    subst hln
    simp [processLines, ih (fun x hx => h x (by simp [hx])), lineSizes,
      lineText, stripWs, stripEnd]

theorem collectAux_noSpans {doc : Doc}
    (h : ∀ pg ∈ doc, ∀ bl ∈ pg, ∀ ln ∈ bl, ln = ([] : PLine)) :
    ∀ n, collectAux n doc = ([], [], []) := by
  induction doc with
  | nil => intro n; rfl
  | cons pg rest ih =>
    intro n
    have hpg : ∀ ln ∈ pageLines pg, ln = ([] : PLine) := by
      intro ln hln
      rcases List.mem_flatten.1 hln with ⟨bl, hbl, hln'⟩
      exact h pg (by simp) bl hbl ln hln'
    simp [collectAux, processLines_noSpans hpg,
      ih (fun pg' hp => h pg' (by simp [hp])) (n + 1)]

/-- Claim C9 (confirmed): a readable document with zero spans extracts
to the empty title and the empty outline; the embedding is a total
function, so no exception is possible. -/
theorem C9_empty_doc (detect : Text → String) (doc : Doc)
    (h : ∀ pg ∈ doc, ∀ bl ∈ pg, ∀ ln ∈ bl, ln = ([] : PLine)) :
    (extract detect doc).title = [] ∧ (extract detect doc).outline = [] := by
  have hc : collect doc = ([], [], []) := collectAux_noSpans h 1
  unfold extract
  rw [hc]
  exact ⟨rfl, rfl⟩

/-- Witness for C9 on the concrete span-free document `doc9`. -/
theorem C9_empty_doc_witness :
    (extract dUnknown doc9).title = [] ∧
      (extract dUnknown doc9).outline = [] :=
  C9_empty_doc dUnknown doc9 (by decide)

/-! ### Claim C10: spans are normalized before language detection -/

/-- Claim C10 (confirmed): every outline entry's text is the text of a
collected block, and every collected block's text was normalized with
the default hint `'unknown'` — so it is fully whitespace-collapsed (the
RTL trim-only branch is never taken) and is independent of the language
detector: the blocks come from `collect doc`, which never consults the
detector. -/
theorem C10_blocks_language_blind (detect : Text → String) (doc : Doc) :
    (∀ h ∈ (extract detect doc).outline,
      ∃ b ∈ (collect doc).2.1, h.text = b.text) ∧
    (∀ b ∈ (collect doc).2.1, cleanT b.text) := by
  constructor
  · intro h hh
    have houtline : (extract detect doc).outline =
        ((collect doc).2.1.foldl
          (classifyStep (font_mapping (uniqueSizesDesc (collect doc).1))
            (detect_language detect (collect doc).2.2)) ([], [])).2 := rfl
    rw [houtline] at hh
    rcases classify_outline_from _ _ (collect doc).2.1 ([], []) h hh with
      h' | ⟨b, hb, he, -⟩
    · simp at h'
    · exact ⟨b, hb, he⟩
  · exact collect_blocks_clean

/-- Witness for C10 on `docE`: the heading text `Intro` originates in a
collected block and is in fully collapsed shape. -/
theorem C10_blocks_language_blind_witness :
    cleanT (TextBlock.mk "Intro".toList 20 1).text :=
  (C10_blocks_language_blind dUnknown docE).2
    (TextBlock.mk "Intro".toList 20 1) (by decide)

end PdfExtract
